import Mathlib

/-!
Verification of the `dir_to_graph` tree builder
(`src/dir_to_graph/core.py`, `src/dir_to_graph/cli.py`).

The embedding models:
* the filesystem as an inductive tree `FSEntry`; a file carries
  `Option Nat` — `none` models `os.path.getsize` raising `OSError`
  (an unreadable file);
* absolute canonical paths as lists of segments (`/A/B` is `["A","B"]`,
  which is what `os.path.abspath` returns on already-canonical input);
* `time.monotonic` as a function `t : Nat → Nat` from a tick counter to
  a timestamp; every call to `time.monotonic()` consumes one tick, and the
  current tick is threaded through the computation as explicit state;
* the `networkx.DiGraph` that `build_tree_json` fills as insertion-ordered
  node and edge lists (`add_node` is guarded by `has_node` in the source;
  `add_edge` is a set-insert, deduplicated);
* `print("[WARNING] ...")` diagnostics as a list of the file paths warned
  about, threaded through the computation.

`json_graph.tree_data` only re-shapes the graph (node attributes plus
successor lists) into nested records, so the claims about "the resulting
tree" are stated on the graph itself: its node list, edge list and
attributes are exactly the data the tree document carries.
-/

namespace DirToGraph

/-- Paths are lists of segments of an absolute canonical path. -/
abbrev Path := List String

/-- One filesystem entry.  A file's `size` is `none` when `os.path.getsize`
would raise `OSError` for it (the file is unreadable). -/
inductive FSEntry where
  | file (name : String) (size : Option Nat)
  | dir (name : String) (entries : List FSEntry)

/-- Base name of an entry. -/
def FSEntry.name : FSEntry → String
  | .file n _ => n
  | .dir n _ => n

/-- Whether the entry is a directory. -/
def FSEntry.isDir : FSEntry → Bool
  | .dir _ _ => true
  | .file _ _ => false

/-- Names and sizes of the immediate files of a directory listing, in
listing order (the `files` component of an `os.walk` triple). -/
def filesOf (es : List FSEntry) : List (String × Option Nat) :=
  es.filterMap fun e =>
    match e with
    | .file n s => some (n, s)
    | .dir _ _ => none

mutual
/-- The triples `os.walk(path)` yields (top-down, no pruning), reduced to
what `get_folder_size` reads from them: for each visited directory, its
path and its immediate files.  `os.walk` of a non-directory yields
nothing. -/
def walkAll (p : Path) (e : FSEntry) : List (Path × List (String × Option Nat)) :=
  match e with
  | .file _ _ => []
  | .dir _ es => (p, filesOf es) :: walkAllList p es

/-- Walk continuation over a directory listing: `os.walk` recurses into the
subdirectories in listing order. -/
def walkAllList (p : Path) (es : List FSEntry) : List (Path × List (String × Option Nat)) :=
  match es with
  | [] => []
  | e :: rest =>
      (if e.isDir then walkAll (p ++ [e.name]) e else []) ++ walkAllList p rest
end

/-- One deadline test `deadline is not None and time.monotonic() > deadline`:
returns the test's value and the next tick (reading the clock consumes a
tick only when a deadline is set, since `time.monotonic()` is only called
then). -/
def dlCheck (t : Nat → Nat) (deadline : Option Nat) (c : Nat) : Bool × Nat :=
  match deadline with
  | none => (false, c)
  | some d => (decide (d < t c), c + 1)

/-- The inner `for name in files` loop of `get_folder_size`:
`.inr (c, w)` means the deadline check fired and the function returns
`None`; `.inl (c, w, total)` means the loop finished with the new running
total.  An unreadable file emits a warning and is skipped
(`except OSError: ... continue`). -/
def gfsFiles (t : Nat → Nat) (deadline : Option Nat) (p : Path) :
    List (String × Option Nat) → Nat → List Path → Nat →
    (Nat × List Path × Nat) ⊕ (Nat × List Path) :=
  fun files c w total =>
    match files with
    | [] => .inl (c, w, total)
    | (n, s) :: rest =>
      match dlCheck t deadline c with
      | (true, c') => .inr (c', w)
      | (false, c') =>
        match s with
        | some sz => gfsFiles t deadline p rest c' w (total + sz)
        | none => gfsFiles t deadline p rest c' (w ++ [p ++ [n]]) total

/-- The outer `for root, _dirs, files in os.walk(path)` loop of
`get_folder_size`, iterating over the walk triples: before each directory
the deadline is checked (`return None` when it fired), then the files of
that directory are summed. -/
def gfsGo (t : Nat → Nat) (deadline : Option Nat) :
    List (Path × List (String × Option Nat)) → Nat → List Path → Nat →
    Nat × List Path × Option Nat :=
  fun triples c w total =>
    match triples with
    | [] => (c, w, some total)
    | (p, files) :: rest =>
      match dlCheck t deadline c with
      | (true, c') => (c', w, none)
      | (false, c') =>
        match gfsFiles t deadline p files c' w total with
        | .inl (c'', w'', total'') => gfsGo t deadline rest c'' w'' total''
        | .inr (c'', w'') => (c'', w'', none)

/-- `get_folder_size(path, deadline)` from `core.py`: walks the subtree at
`path`, summing file sizes, aborting with `None` once the deadline has
passed.  Returns the next clock tick, the warnings emitted, and the result
(`none` = Python `None`). -/
def get_folder_size (t : Nat → Nat) (path : Path) (e : FSEntry)
    (deadline : Option Nat) (c : Nat) : Nat × List Path × Option Nat :=
  gfsGo t deadline (walkAll path e) c [] 0

/-- Sum of the readable file sizes in one `files` list (unreadable files
contribute nothing, exactly as the `except OSError: continue` branch). -/
def sumFiles (files : List (String × Option Nat)) : Nat :=
  (files.filterMap Prod.snd).sum

/-- Sum of the readable file sizes over a list of walk triples. -/
def sumTriples (triples : List (Path × List (String × Option Nat))) : Nat :=
  (triples.map fun pr => sumFiles pr.2).sum

/-- The complete sum `get_folder_size` aims for: all readable descendant
file sizes of the subtree at `path`. -/
def sum_readable_sizes (path : Path) (e : FSEntry) : Nat :=
  sumTriples (walkAll path e)

/-- Every descendant file of the subtree is readable (its size query does
not raise). -/
def all_readable (path : Path) (e : FSEntry) : Bool :=
  (walkAll path e).all fun pr => pr.2.all fun f => f.2.isSome

/-- Exact sum of the sizes of all descendant files (meaningful when
`all_readable`; an unreadable file counts as 0 here). -/
def sum_all_sizes (path : Path) (e : FSEntry) : Nat :=
  ((walkAll path e).map fun pr => (pr.2.map fun f => f.2.getD 0).sum).sum

/-- `DEFAULT_IGNORES` from `core.py`. -/
def DEFAULT_IGNORES : List String :=
  [".git", ".venv", "venv", "bin", "__pycache__", ".ipynb_checkpoints"]

/-- The dynamically-typed `ignore` argument of `build_dod` /
`build_tree_json`: Python `None`, a single `str`, or an iterable of
strings. -/
inductive IgnoreArg where
  | nil
  | str (s : String)
  | list (l : List String)

/-- `_normalize_ignores` from `core.py`: `None` means the default list, a
single string becomes the singleton set of that string (the
`isinstance(ignore, str)` branch prevents iterating the string
character-by-character), an iterable becomes the set of its elements.
Python sets are used only through membership tests, so a list with
list-membership is a faithful model. -/
def _normalize_ignores : IgnoreArg → List String
  | .nil => DEFAULT_IGNORES
  | .str s => [s]
  | .list l => l

mutual
/-- The triples the pruned `os.walk` of `build_tree_json` yields:
`dirs[:] = [d for d in dirs if d not in ignore_set]` filters the
subdirectory list in place before the walk descends, so an ignored
directory is never visited.  Each yielded triple is reduced to the visited
directory's path and its `FSEntry` (from whose listing `build_tree_json`
reads the pruned `dirs` and the `files`).  The top directory itself is
always yielded, whatever its name. -/
def walkPruned (ig : List String) (p : Path) (e : FSEntry) : List (Path × FSEntry) :=
  match e with
  | .file _ _ => []
  | .dir n es => (p, .dir n es) :: walkPrunedList ig p es

/-- Pruned-walk continuation over a directory listing: the walk descends
only into subdirectories whose name survives the ignore filter. -/
def walkPrunedList (ig : List String) (p : Path) (es : List FSEntry) : List (Path × FSEntry) :=
  match es with
  | [] => []
  | e :: rest =>
      (if e.isDir && !ig.contains e.name then walkPruned ig (p ++ [e.name]) e else [])
        ++ walkPrunedList ig p rest
end

/-- Node kind, the `type` attribute of a graph node. -/
inductive NodeType where
  | folder
  | file
deriving DecidableEq, Repr

/-- One `networkx` graph node with its attributes.  `size_bytes = none`
models the attribute being absent (only the defensive root default omits
it); `some none` models the attribute set to Python `None`. -/
structure Node where
  id : Path
  type : NodeType
  name : String
  size_bytes : Option (Option Nat)
deriving DecidableEq, Repr

/-- The `networkx.DiGraph` contents: nodes and edges in insertion order. -/
structure Graph where
  nodes : List Node
  edges : List (Path × Path)
deriving DecidableEq, Repr

/-- `g.has_node(p)`. -/
def Graph.hasNode (g : Graph) (p : Path) : Bool :=
  g.nodes.any fun n => decide (n.id = p)

/-- `g.add_node(...)` (only ever called under a `has_node` guard in the
source, so it appends). -/
def Graph.addNode (g : Graph) (n : Node) : Graph :=
  { g with nodes := g.nodes ++ [n] }

/-- `g.add_edge(u, v)`: a set insert, a no-op when the edge exists. -/
def Graph.addEdge (g : Graph) (ed : Path × Path) : Graph :=
  if ed ∈ g.edges then g else { g with edges := g.edges ++ [ed] }

/-- A path rendered back as a string, as `os.path.abspath` returns it. -/
def pathString (p : Path) : String :=
  "/" ++ String.intercalate "/" p

/-- `os.path.basename` on a canonical absolute path. -/
def basename (p : Path) : String := p.getLastD ""

/-- `os.path.basename(parent_path) or parent_path`: the base name, falling
back to the whole path string when the base name is empty (the filesystem
root). -/
def nameOf (p : Path) : String :=
  if basename p = "" then pathString p else basename p

/-- The body of the `for d in dirs` loop of `build_tree_json` for one
surviving subdirectory `d`: when its path has no node yet, compute its
size with the shared deadline and add a folder node; then add the edge
from the parent.  State is `(graph, clock, warnings)`. -/
def addDirChild (t : Nat → Nat) (deadline : Option Nat) (p : Path)
    (st : Graph × Nat × List Path) (d : FSEntry) : Graph × Nat × List Path :=
  let g := st.1
  let c := st.2.1
  let w := st.2.2
  let childPath := p ++ [d.name]
  let st' :=
    if g.hasNode childPath then (g, c, w)
    else
      let r := get_folder_size t childPath d deadline c
      (g.addNode ⟨childPath, .folder, d.name, some r.2.2⟩, r.1, w ++ r.2.1)
  (st'.1.addEdge (p, childPath), st'.2.1, st'.2.2)

/-- The body of the `for file_name in files` loop of `build_tree_json` for
one file: `os.path.getsize` is attempted first (an `OSError` yields a
warning and size `None`), then a file node is added unless present, then
the edge from the parent. -/
def addFileChild (p : Path) (st : Graph × Nat × List Path)
    (f : String × Option Nat) : Graph × Nat × List Path :=
  let g := st.1
  let c := st.2.1
  let w := st.2.2
  let fullPath := p ++ [f.1]
  let w' := match f.2 with
    | some _ => w
    | none => w ++ [fullPath]
  let g' := if g.hasNode fullPath then g
    else g.addNode ⟨fullPath, .file, f.1, some f.2⟩
  (g'.addEdge (p, fullPath), c, w')

/-- The body of the `for subdir, dirs, files in os.walk(...)` loop of
`build_tree_json` for one yielded triple: add the parent folder node (with
its deadline-bounded size) unless present, then the surviving
subdirectories, then the files. -/
def buildStep (t : Nat → Nat) (ig : List String) (deadline : Option Nat)
    (st : Graph × Nat × List Path) (pe : Path × FSEntry) : Graph × Nat × List Path :=
  match pe with
  | (_, .file _ _) => st
  | (p, .dir dn es) =>
    let g := st.1
    let c := st.2.1
    let w := st.2.2
    let st1 :=
      if g.hasNode p then (g, c, w)
      else
        let r := get_folder_size t p (.dir dn es) deadline c
        (g.addNode ⟨p, .folder, nameOf p, some r.2.2⟩, r.1, w ++ r.2.1)
    let st2 := (es.filter fun x => x.isDir && !ig.contains x.name).foldl
      (addDirChild t deadline p) st1
    (filesOf es).foldl (addFileChild p) st2

/-- The walk loop of `build_tree_json` followed by the defensive root
default: run `buildStep` over every pruned-walk triple, then, if the root
path never received a node (the walk was empty), add a folder node with
no `size_bytes` attribute.  The deadline is received once and threaded
unchanged through every step. -/
def build_with_deadline (t : Nat → Nat) (rootPath : Path) (e : FSEntry)
    (ig : List String) (deadline : Option Nat) (c0 : Nat) : Graph × Nat × List Path :=
  let st := (walkPruned ig rootPath e).foldl (buildStep t ig deadline) (⟨[], []⟩, c0, [])
  let g := st.1
  let g' := if g.hasNode rootPath then g
    else g.addNode ⟨rootPath, .folder, basename rootPath, none⟩
  (g', st.2.1, st.2.2)

/-- `build_tree_json(dir_of_interest, ignore, max_seconds)` from `core.py`:
normalize the ignore argument, fix the deadline once
(`time.monotonic() + max_seconds`, consuming the build's first clock tick)
when a positive time budget is given, and run the walk loop.  `rootPath`
is the canonical absolute form of `dir_of_interest` and `e` is what the
filesystem holds there. -/
def build_tree_json (t : Nat → Nat) (rootPath : Path) (e : FSEntry)
    (ignore : IgnoreArg) (max_seconds : Option Nat) : Graph × Nat × List Path :=
  let ig := _normalize_ignores ignore
  match max_seconds with
  | some m =>
    if 0 < m then build_with_deadline t rootPath e ig (some (t 0 + m)) 1
    else build_with_deadline t rootPath e ig none 0
  | none => build_with_deadline t rootPath e ig none 0

/-- What the target path resolves to on the filesystem: `none` when the
path does not exist. -/
abbrev Target := Option FSEntry

/-- `os.path.isdir`. -/
def os_isdir : Target → Bool
  | some (.dir _ _) => true
  | _ => false

/-- The `main` entry point of `cli.py`, reduced to its control flow around
the builder: it validates `os.path.isdir(target_dir)` before anything
else touches the filesystem tree, raising `SystemExit` (the `.error`
branch, in which no traversal happens) when the check fails, and otherwise
builds and returns the tree document.  Nothing in the build itself can
fail. -/
def cli_main (t : Nat → Nat) (rootPath : Path) (target : Target)
    (ignore : IgnoreArg) (max_seconds : Option Nat) : Except String Graph :=
  match target with
  | some (.dir dn es) =>
    .ok (build_tree_json t rootPath (.dir dn es) ignore max_seconds).1
  | _ => .error ("Not a directory: " ++ pathString rootPath)

/-- Whether an `Except` result is a success. -/
def exceptOk : Except String Graph → Bool
  | .ok _ => true
  | .error _ => false

/-- The spec's two-level example: directory `A` containing `a.txt`
(4 bytes) and subdirectory `B` containing `b.txt` (6 bytes). -/
def exTreeA : FSEntry :=
  .dir "A" [.file "a.txt" (some 4), .dir "B" [.file "b.txt" (some 6)]]

/-- A clock that never advances; with no deadline the clock is irrelevant. -/
def zeroClock : Nat → Nat := fun _ => 0

/-- Building the example at `A` with `B` ignored and no time budget. -/
def buildA_ignoreB : Graph :=
  (build_tree_json zeroClock ["A"] exTreeA (.list ["B"]) none).1

/-- Directory `A` containing an unreadable file `bad.txt` and a readable
file `good.txt` of 5 bytes. -/
def exTreeBad : FSEntry :=
  .dir "A" [.file "bad.txt" none, .file "good.txt" (some 5)]

/-- Building the unreadable-file example (graph, clock, warnings). -/
def buildBad : Graph × Nat × List Path :=
  build_tree_json zeroClock ["A"] exTreeBad (.list []) none

/-- Directory `A` containing a single file, built with `A` itself in the
ignore set. -/
def exTreeIgnRoot : FSEntry := .dir "A" [.file "x.txt" (some 1)]

/-- Building `exTreeIgnRoot` at root `A` with ignore set `{A}`. -/
def buildIgnRoot : Graph :=
  (build_tree_json zeroClock ["A"] exTreeIgnRoot (.list ["A"]) none).1

/-- Invariant of the graph throughout the build loop: every node id
extends the root path by segments none of which (except possibly a final
file name) is ignored; no edge targets the root; and the node list, when
nonempty, starts with the root node and every later node has an incoming
edge. -/
structure Inv (root : Path) (ig : List String) (g : Graph) : Prop where
  nodesOk : ∀ n ∈ g.nodes, ∃ rel, n.id = root ++ rel ∧
    (∀ s ∈ rel.dropLast, s ∉ ig) ∧
    (n.type = NodeType.folder → ∀ s ∈ rel, s ∉ ig)
  targets : ∀ ed ∈ g.edges, ed.2 ≠ root
  shape : g.nodes = [] ∨ ∃ n0 rest, g.nodes = n0 :: rest ∧ n0.id = root ∧
    ∀ n ∈ rest, ∃ ed ∈ g.edges, ed.2 = n.id

/-- The induction property of one subtree for the walk loop: folding
`buildStep` over the pruned walk of the subtree preserves the invariant,
keeps all existing nodes, and (for a directory) leaves the visited
directory's node present. -/
def MProp (t : Nat → Nat) (ig : List String) (dl : Option Nat) (root : Path)
    (e : FSEntry) : Prop :=
  ∀ (rel : List String) (st : Graph × Nat × List Path),
    (∀ s ∈ rel, s ∉ ig) → Inv root ig st.1 →
    (st.1.hasNode (root ++ rel) = true ∨ (st.1 = ⟨[], []⟩ ∧ rel = [])) →
    Inv root ig ((walkPruned ig (root ++ rel) e).foldl (buildStep t ig dl) st).1 ∧
    (∀ q, st.1.hasNode q = true →
      ((walkPruned ig (root ++ rel) e).foldl (buildStep t ig dl) st).1.hasNode q = true) ∧
    (e.isDir = true →
      ((walkPruned ig (root ++ rel) e).foldl (buildStep t ig dl) st).1.hasNode
        (root ++ rel) = true)

/-- Correspondence between the nodes two runs of the build produce for the
same filesystem: same id, kind and name; a file's recorded size is
identical; and when both runs report a folder size, the values agree (a
folder size may be `None` on one run and present on the other when the
deadline straddled that computation). -/
def NodeSim (n1 n2 : Node) : Prop :=
  n1.id = n2.id ∧ n1.type = n2.type ∧ n1.name = n2.name ∧
  (n1.type = NodeType.file → n1.size_bytes = n2.size_bytes) ∧
  (∀ s1 s2, n1.size_bytes = some (some s1) → n2.size_bytes = some (some s2) → s1 = s2)

/-- Relational invariant between the graphs of two runs. -/
def RInv (g1 g2 : Graph) : Prop :=
  g1.edges = g2.edges ∧ List.Forall₂ NodeSim g1.nodes g2.nodes

theorem Graph.nodes_addEdge (g : Graph) (ed : Path × Path) :
    (g.addEdge ed).nodes = g.nodes := by
  unfold Graph.addEdge
  split <;> rfl

theorem Graph.hasNode_addEdge (g : Graph) (ed : Path × Path) (p : Path) :
    (g.addEdge ed).hasNode p = g.hasNode p := by
  unfold Graph.hasNode
  rw [Graph.nodes_addEdge]

theorem Graph.edges_addNode (g : Graph) (n : Node) :
    (g.addNode n).edges = g.edges := rfl

theorem Graph.nodes_addNode (g : Graph) (n : Node) :
    (g.addNode n).nodes = g.nodes ++ [n] := rfl

theorem Graph.mem_nodes_addNode (g : Graph) (n m : Node) :
    m ∈ (g.addNode n).nodes ↔ m ∈ g.nodes ∨ m = n := by
  simp [Graph.addNode]

theorem Graph.mem_edges_addEdge (g : Graph) (ed ed' : Path × Path) :
    ed' ∈ (g.addEdge ed).edges ↔ ed' ∈ g.edges ∨ ed' = ed := by
  unfold Graph.addEdge
  split
  next hmem =>
    constructor
    · exact Or.inl
    · rintro (h | rfl)
      · exact h
      · exact hmem
  next hmem => simp

theorem Graph.self_mem_addEdge (g : Graph) (ed : Path × Path) :
    ed ∈ (g.addEdge ed).edges := by
  rw [Graph.mem_edges_addEdge]
  exact Or.inr rfl

theorem Graph.hasNode_iff (g : Graph) (p : Path) :
    g.hasNode p = true ↔ ∃ n ∈ g.nodes, n.id = p := by
  simp [Graph.hasNode, List.any_eq_true]

theorem Graph.hasNode_addNode (g : Graph) (n : Node) (p : Path) :
    (g.addNode n).hasNode p = (g.hasNode p || decide (n.id = p)) := by
  simp [Graph.hasNode, Graph.addNode, List.any_append]

theorem Graph.hasNode_addNode_of (g : Graph) (n : Node) (p : Path)
    (h : g.hasNode p = true) : (g.addNode n).hasNode p = true := by
  rw [Graph.hasNode_addNode, h, Bool.true_or]

/-- A path extended by one more segment is never the bare root path. -/
theorem extend_ne_root (root rel : List String) (x : String) :
    (root ++ rel) ++ [x] ≠ root := by
  intro h
  have hl := congrArg List.length h
  simp [List.length_append] at hl

theorem Inv.empty (root : Path) (ig : List String) : Inv root ig ⟨[], []⟩ := by
  refine ⟨?_, ?_, ?_⟩
  · intro n hn; cases hn
  · intro ed hed; cases hed
  · exact Or.inl rfl

/-- Adding one linked child under a visited directory `p = root ++ rel`
(a guarded `add_node` for `p ++ [x]` followed by `add_edge`) preserves the
invariant, keeps every existing node, and leaves the child's node
present. -/
theorem Inv.addLinkedChild (root : Path) (ig : List String) (g : Graph)
    (hInv : Inv root ig g) (rel : List String) (x : String)
    (hg : g.hasNode (root ++ rel) = true)
    (hrelDrop : ∀ s ∈ rel, s ∉ ig)
    (n : Node) (hid : n.id = (root ++ rel) ++ [x])
    (hty : n.type = NodeType.folder → x ∉ ig) :
    let g' := ((if g.hasNode ((root ++ rel) ++ [x]) then g else g.addNode n).addEdge
      (root ++ rel, (root ++ rel) ++ [x]))
    Inv root ig g' ∧ (∀ q, g.hasNode q = true → g'.hasNode q = true) ∧
      g'.hasNode ((root ++ rel) ++ [x]) = true := by
  intro g'
  have hrel' : ∀ s ∈ (rel ++ [x]).dropLast, s ∉ ig := by
    rw [List.dropLast_concat]
    exact hrelDrop
  by_cases hch : g.hasNode ((root ++ rel) ++ [x]) = true
  · simp only [g', hch, if_pos]
    refine ⟨⟨?_, ?_, ?_⟩, ?_, ?_⟩
    · intro m hm
      rw [Graph.nodes_addEdge] at hm
      exact hInv.nodesOk m hm
    · intro ed hed
      rw [Graph.mem_edges_addEdge] at hed
      rcases hed with hed | rfl
      · exact hInv.targets ed hed
      · exact extend_ne_root root rel x
    · rcases hInv.shape with hsh | ⟨n0, rest, hns, hid0, hlink⟩
      · exact Or.inl (by rw [Graph.nodes_addEdge]; exact hsh)
      · refine Or.inr ⟨n0, rest, ?_, hid0, ?_⟩
        · rw [Graph.nodes_addEdge]; exact hns
        · intro m hm
          obtain ⟨ed, hed, heq⟩ := hlink m hm
          exact ⟨ed, (Graph.mem_edges_addEdge _ _ _).2 (Or.inl hed), heq⟩
    · intro q hq
      rw [Graph.hasNode_addEdge]
      exact hq
    · rw [Graph.hasNode_addEdge]
      exact hch
  · simp only [g', hch, if_neg, Bool.not_eq_true]
    have hne : g.nodes ≠ [] := by
      rw [Graph.hasNode_iff] at hg
      obtain ⟨m, hm, _⟩ := hg
      intro hnil
      rw [hnil] at hm
      cases hm
    refine ⟨⟨?_, ?_, ?_⟩, ?_, ?_⟩
    · intro m hm
      rw [Graph.nodes_addEdge, Graph.mem_nodes_addNode] at hm
      rcases hm with hm | rfl
      · exact hInv.nodesOk m hm
      · refine ⟨rel ++ [x], by rw [hid, List.append_assoc], hrel', ?_⟩
        intro hty' s hs
        rw [List.mem_append] at hs
        rcases hs with hs | hs
        · exact hrelDrop s hs
        · rw [List.mem_singleton] at hs
          rw [hs]
          exact hty hty'
    · intro ed hed
      rw [Graph.mem_edges_addEdge, Graph.edges_addNode] at hed
      rcases hed with hed | rfl
      · exact hInv.targets ed hed
      · exact extend_ne_root root rel x
    · rcases hInv.shape with hsh | ⟨n0, rest, hns, hid0, hlink⟩
      · exact absurd hsh hne
      · refine Or.inr ⟨n0, rest ++ [n], ?_, hid0, ?_⟩
        · rw [Graph.nodes_addEdge, Graph.nodes_addNode, hns]
          rfl
        · intro m hm
          rw [List.mem_append, List.mem_singleton] at hm
          rcases hm with hm | rfl
          · obtain ⟨ed, hed, heq⟩ := hlink m hm
            refine ⟨ed, ?_, heq⟩
            rw [Graph.mem_edges_addEdge, Graph.edges_addNode]
            exact Or.inl hed
          · refine ⟨(root ++ rel, (root ++ rel) ++ [x]), Graph.self_mem_addEdge _ _, ?_⟩
            exact hid.symm
    · intro q hq
      rw [Graph.hasNode_addEdge]
      exact Graph.hasNode_addNode_of g n q hq
    · rw [Graph.hasNode_addEdge, Graph.hasNode_addNode]
      rw [hid]
      simp

theorem not_mem_of_contains_false {l : List String} {x : String}
    (h : l.contains x = false) : x ∉ l := by
  simp at h
  exact h

/-- The graph component of one dir-child step. -/
theorem addDirChild_graph (t : Nat → Nat) (dl : Option Nat) (p : Path)
    (st : Graph × Nat × List Path) (d : FSEntry) :
    (addDirChild t dl p st d).1 =
      (if st.1.hasNode (p ++ [d.name]) then st.1
       else st.1.addNode ⟨p ++ [d.name], .folder, d.name,
         some (get_folder_size t (p ++ [d.name]) d dl st.2.1).2.2⟩).addEdge
        (p, p ++ [d.name]) := by
  by_cases h : st.1.hasNode (p ++ [d.name]) <;> simp [addDirChild, h]

/-- The graph component of one file-child step. -/
theorem addFileChild_graph (p : Path) (st : Graph × Nat × List Path)
    (f : String × Option Nat) :
    (addFileChild p st f).1 =
      (if st.1.hasNode (p ++ [f.1]) then st.1
       else st.1.addNode ⟨p ++ [f.1], .file, f.1, some f.2⟩).addEdge
        (p, p ++ [f.1]) := by
  by_cases h : st.1.hasNode (p ++ [f.1]) <;> simp [addFileChild, h]

/-- One dir-child step preserves the invariant and existing nodes, and
leaves the child node present. -/
theorem addDirChild_inv (root : Path) (ig : List String) (t : Nat → Nat)
    (dl : Option Nat) (rel : List String) (hrel : ∀ s ∈ rel, s ∉ ig)
    (st : Graph × Nat × List Path) (d : FSEntry) (hd : d.name ∉ ig)
    (hInv : Inv root ig st.1) (hg : st.1.hasNode (root ++ rel) = true) :
    Inv root ig (addDirChild t dl (root ++ rel) st d).1 ∧
    (∀ q, st.1.hasNode q = true →
      (addDirChild t dl (root ++ rel) st d).1.hasNode q = true) ∧
    (addDirChild t dl (root ++ rel) st d).1.hasNode ((root ++ rel) ++ [d.name]) = true := by
  simp only [addDirChild_graph]
  exact Inv.addLinkedChild root ig st.1 hInv rel d.name hg hrel
    ⟨(root ++ rel) ++ [d.name], .folder, d.name,
      some (get_folder_size t ((root ++ rel) ++ [d.name]) d dl st.2.1).2.2⟩
    rfl (fun _ => hd)

/-- One file-child step preserves the invariant and existing nodes. -/
theorem addFileChild_inv (root : Path) (ig : List String)
    (rel : List String) (hrel : ∀ s ∈ rel, s ∉ ig)
    (st : Graph × Nat × List Path) (f : String × Option Nat)
    (hInv : Inv root ig st.1) (hg : st.1.hasNode (root ++ rel) = true) :
    Inv root ig (addFileChild (root ++ rel) st f).1 ∧
    (∀ q, st.1.hasNode q = true →
      (addFileChild (root ++ rel) st f).1.hasNode q = true) := by
  simp only [addFileChild_graph]
  have h := Inv.addLinkedChild root ig st.1 hInv rel f.1 hg hrel
    ⟨(root ++ rel) ++ [f.1], .file, f.1, some f.2⟩
    rfl (fun h' => NodeType.noConfusion h')
  exact ⟨h.1, h.2.1⟩

/-- The dir-children loop preserves the invariant and existing nodes, and
leaves every processed child's node present. -/
theorem foldl_addDirChild_inv (root : Path) (ig : List String) (t : Nat → Nat)
    (dl : Option Nat) (rel : List String) (hrel : ∀ s ∈ rel, s ∉ ig) :
    ∀ (ds : List FSEntry) (st : Graph × Nat × List Path),
      Inv root ig st.1 → st.1.hasNode (root ++ rel) = true →
      (∀ d ∈ ds, d.name ∉ ig) →
      Inv root ig (ds.foldl (addDirChild t dl (root ++ rel)) st).1 ∧
      (∀ q, st.1.hasNode q = true →
        (ds.foldl (addDirChild t dl (root ++ rel)) st).1.hasNode q = true) ∧
      (∀ d ∈ ds,
        (ds.foldl (addDirChild t dl (root ++ rel)) st).1.hasNode
          ((root ++ rel) ++ [d.name]) = true) := by
  intro ds
  induction ds with
  | nil =>
    intro st hInv hg _
    refine ⟨hInv, fun q hq => hq, ?_⟩
    intro d hd
    cases hd
  | cons d rest ih =>
    intro st hInv hg hds
    have hstep := addDirChild_inv root ig t dl rel hrel st d
      (hds d (List.mem_cons_self d rest)) hInv hg
    have hg' := hstep.2.1 (root ++ rel) hg
    have hrest := ih (addDirChild t dl (root ++ rel) st d) hstep.1 hg'
      (fun d' hd' => hds d' (List.mem_cons_of_mem d hd'))
    rw [List.foldl_cons]
    refine ⟨hrest.1, ?_, ?_⟩
    · intro q hq
      exact hrest.2.1 q (hstep.2.1 q hq)
    · intro d' hd'
      rcases List.mem_cons.1 hd' with rfl | hd'
      · exact hrest.2.1 _ hstep.2.2
      · exact hrest.2.2 d' hd'

/-- The files loop preserves the invariant and existing nodes. -/
theorem foldl_addFileChild_inv (root : Path) (ig : List String)
    (rel : List String) (hrel : ∀ s ∈ rel, s ∉ ig) :
    ∀ (fs : List (String × Option Nat)) (st : Graph × Nat × List Path),
      Inv root ig st.1 → st.1.hasNode (root ++ rel) = true →
      Inv root ig (fs.foldl (addFileChild (root ++ rel)) st).1 ∧
      (∀ q, st.1.hasNode q = true →
        (fs.foldl (addFileChild (root ++ rel)) st).1.hasNode q = true) := by
  intro fs
  induction fs with
  | nil =>
    intro st hInv _
    exact ⟨hInv, fun q hq => hq⟩
  | cons f rest ih =>
    intro st hInv hg
    have hstep := addFileChild_inv root ig rel hrel st f hInv hg
    have hg' := hstep.2 (root ++ rel) hg
    have hrest := ih (addFileChild (root ++ rel) st f) hstep.1 hg'
    rw [List.foldl_cons]
    exact ⟨hrest.1, fun q hq => hrest.2 q (hstep.2 q hq)⟩

theorem filter_name_not_mem (ig : List String) (es : List FSEntry) :
    ∀ d ∈ es.filter (fun x => x.isDir && !ig.contains x.name), d.name ∉ ig := by
  intro d hd
  have hpred := (List.mem_filter.1 hd).2
  rw [Bool.and_eq_true] at hpred
  have hc : ig.contains d.name = false := by
    have h2 := hpred.2
    rwa [Bool.not_eq_true'] at h2
  exact not_mem_of_contains_false hc

/-- One walk-triple step of the build loop preserves the invariant, keeps
all existing nodes, and establishes nodes for the visited directory and
every surviving subdirectory. -/
theorem buildStep_inv (root : Path) (ig : List String) (t : Nat → Nat)
    (dl : Option Nat) (rel : List String) (hrel : ∀ s ∈ rel, s ∉ ig)
    (dn : String) (es : List FSEntry) (st : Graph × Nat × List Path)
    (hInv : Inv root ig st.1)
    (hstart : st.1.hasNode (root ++ rel) = true ∨ (st.1 = ⟨[], []⟩ ∧ rel = [])) :
    Inv root ig (buildStep t ig dl st (root ++ rel, .dir dn es)).1 ∧
    (∀ q, st.1.hasNode q = true →
      (buildStep t ig dl st (root ++ rel, .dir dn es)).1.hasNode q = true) ∧
    (buildStep t ig dl st (root ++ rel, .dir dn es)).1.hasNode (root ++ rel) = true ∧
    (∀ d ∈ es.filter (fun x => x.isDir && !ig.contains x.name),
      (buildStep t ig dl st (root ++ rel, .dir dn es)).1.hasNode
        ((root ++ rel) ++ [d.name]) = true) := by
  have heq : buildStep t ig dl st (root ++ rel, .dir dn es) =
      (filesOf es).foldl (addFileChild (root ++ rel))
        ((es.filter fun x => x.isDir && !ig.contains x.name).foldl
          (addDirChild t dl (root ++ rel))
          (if st.1.hasNode (root ++ rel) then (st.1, st.2.1, st.2.2)
           else
             (st.1.addNode ⟨root ++ rel, .folder, nameOf (root ++ rel),
                some (get_folder_size t (root ++ rel) (.dir dn es) dl st.2.1).2.2⟩,
              (get_folder_size t (root ++ rel) (.dir dn es) dl st.2.1).1,
              st.2.2 ++ (get_folder_size t (root ++ rel) (.dir dn es) dl st.2.1).2.1))) := by
    by_cases hg : st.1.hasNode (root ++ rel) = true <;> simp [buildStep, hg]
  rw [heq]
  have hds := filter_name_not_mem ig es
  by_cases hg : st.1.hasNode (root ++ rel) = true
  · rw [if_pos hg]
    have h2 := foldl_addDirChild_inv root ig t dl rel hrel
      (es.filter fun x => x.isDir && !ig.contains x.name) (st.1, st.2.1, st.2.2) hInv hg hds
    have hg2 : ((es.filter fun x => x.isDir && !ig.contains x.name).foldl
        (addDirChild t dl (root ++ rel)) (st.1, st.2.1, st.2.2)).1.hasNode
        (root ++ rel) = true := h2.2.1 (root ++ rel) hg
    have h3 := foldl_addFileChild_inv root ig rel hrel (filesOf es) _ h2.1 hg2
    refine ⟨h3.1, ?_, h3.2 _ hg2, ?_⟩
    · intro q hq
      exact h3.2 q (h2.2.1 q hq)
    · intro d hd
      exact h3.2 _ (h2.2.2 d hd)
  · rcases hstart with hst | ⟨hemp, hrelnil⟩
    · exact absurd hst hg
    · subst hrelnil
      rw [if_neg hg, hemp]
      simp only [List.append_nil]
      have hInvB : Inv root ig ((⟨[], []⟩ : Graph).addNode
          ⟨root, .folder, nameOf root,
            some (get_folder_size t root (.dir dn es) dl st.2.1).2.2⟩) := by
        refine ⟨?_, ?_, ?_⟩
        · intro m hm
          rw [Graph.mem_nodes_addNode] at hm
          rcases hm with hm | rfl
          · cases hm
          · exact ⟨[], by simp, by simp, fun _ s hs => absurd hs (by simp)⟩
        · intro ed hed
          cases hed
        · refine Or.inr ⟨_, [], rfl, rfl, ?_⟩
          intro m hm
          cases hm
      have hgB : ((⟨[], []⟩ : Graph).addNode
          ⟨root, .folder, nameOf root,
            some (get_folder_size t root (.dir dn es) dl st.2.1).2.2⟩).hasNode root = true := by
        simp [Graph.hasNode, Graph.addNode]
      have h2 := foldl_addDirChild_inv root ig t dl [] hrel
        (es.filter fun x => x.isDir && !ig.contains x.name)
        ((⟨[], []⟩ : Graph).addNode
            ⟨root, .folder, nameOf root,
              some (get_folder_size t root (.dir dn es) dl st.2.1).2.2⟩,
          (get_folder_size t root (.dir dn es) dl st.2.1).1,
          st.2.2 ++ (get_folder_size t root (.dir dn es) dl st.2.1).2.1) hInvB
        (by simpa using hgB) hds
      simp only [List.append_nil] at h2
      have hg2 := h2.2.1 root hgB
      have h3 := foldl_addFileChild_inv root ig [] hrel (filesOf es) _ h2.1
        (by simpa using hg2)
      simp only [List.append_nil] at h3
      refine ⟨h3.1, ?_, h3.2 _ hg2, ?_⟩
      · intro q hq
        simp [Graph.hasNode] at hq
      · intro d hd
        exact h3.2 _ (h2.2.2 d hd)

/-- Folding over the pruned-walk continuation of a directory listing,
given the induction property for every entry. -/
theorem masterList (t : Nat → Nat) (ig : List String) (dl : Option Nat) (root : Path) :
    ∀ (es : List FSEntry), (∀ e' ∈ es, MProp t ig dl root e') →
    ∀ (rel : List String) (st : Graph × Nat × List Path),
      (∀ s ∈ rel, s ∉ ig) → Inv root ig st.1 →
      (∀ d ∈ es, (d.isDir && !ig.contains d.name) = true →
        st.1.hasNode ((root ++ rel) ++ [d.name]) = true) →
      Inv root ig ((walkPrunedList ig (root ++ rel) es).foldl (buildStep t ig dl) st).1 ∧
      (∀ q, st.1.hasNode q = true →
        ((walkPrunedList ig (root ++ rel) es).foldl (buildStep t ig dl) st).1.hasNode
          q = true) := by
  intro es
  induction es with
  | nil =>
    intro _ rel st _ hInv _
    exact ⟨hInv, fun q hq => hq⟩
  | cons e rest ih =>
    intro hM rel st hrel hInv hch
    rw [walkPrunedList]
    rw [List.foldl_append]
    by_cases hcond : (e.isDir && !ig.contains e.name) = true
    · rw [if_pos hcond]
      have hnotmem : e.name ∉ ig := by
        rw [Bool.and_eq_true] at hcond
        have h2 := hcond.2
        rw [Bool.not_eq_true'] at h2
        exact not_mem_of_contains_false h2
      have hrel' : ∀ s ∈ rel ++ [e.name], s ∉ ig := by
        intro s hs
        rw [List.mem_append, List.mem_singleton] at hs
        rcases hs with hs | rfl
        · exact hrel s hs
        · exact hnotmem
      have hMe := hM e (List.mem_cons_self e rest) (rel ++ [e.name]) st hrel' hInv
        (Or.inl (by
          rw [← List.append_assoc]
          exact hch e (List.mem_cons_self e rest) hcond))
      rw [← List.append_assoc] at hMe
      have hrest := ih (fun e' he' => hM e' (List.mem_cons_of_mem e he')) rel
        ((walkPruned ig ((root ++ rel) ++ [e.name]) e).foldl (buildStep t ig dl) st)
        hrel hMe.1
        (fun d hd hdc => hMe.2.1 _ (hch d (List.mem_cons_of_mem e hd) hdc))
      refine ⟨hrest.1, ?_⟩
      intro q hq
      exact hrest.2 q (hMe.2.1 q hq)
    · rw [if_neg hcond]
      rw [List.foldl_nil]
      exact ih (fun e' he' => hM e' (List.mem_cons_of_mem e he')) rel st hrel hInv
        (fun d hd hdc => hch d (List.mem_cons_of_mem e hd) hdc)

/-- Every subtree satisfies the induction property (strong induction on
the size of the entry). -/
theorem masterAll (t : Nat → Nat) (ig : List String) (dl : Option Nat) (root : Path) :
    ∀ (N : Nat) (e : FSEntry), sizeOf e ≤ N → MProp t ig dl root e := by
  intro N
  induction N with
  | zero =>
    intro e he
    exfalso
    cases e <;> simp at he
  | succ N ih =>
    intro e he
    cases e with
    | file n s =>
      intro rel st hrel hInv hstart
      refine ⟨hInv, fun q hq => hq, ?_⟩
      intro hdir
      exact absurd hdir (by simp [FSEntry.isDir])
    | dir dn es =>
      intro rel st hrel hInv hstart
      rw [walkPruned, List.foldl_cons]
      have hstep := buildStep_inv root ig t dl rel hrel dn es st hInv hstart
      have hMs : ∀ e' ∈ es, MProp t ig dl root e' := by
        intro e' he'
        apply ih
        have h1 : sizeOf e' < sizeOf es := List.sizeOf_lt_of_mem he'
        have h2 : sizeOf (FSEntry.dir dn es) = 1 + sizeOf dn + sizeOf es := by
          simp
        omega
      have hml := masterList t ig dl root es hMs rel
        (buildStep t ig dl st (root ++ rel, .dir dn es)) hrel hstep.1
        (fun d hd hdc => hstep.2.2.2 d (List.mem_filter.2 ⟨hd, hdc⟩))
      refine ⟨hml.1, ?_, ?_⟩
      · intro q hq
        exact hml.2 q (hstep.2.1 q hq)
      · intro _
        exact hml.2 _ hstep.2.2.1

/-- The full build loop with the defensive root default establishes the
invariant and a node for the root path. -/
theorem build_inv (t : Nat → Nat) (root : Path) (e : FSEntry) (ig : List String)
    (dl : Option Nat) (c0 : Nat) :
    Inv root ig (build_with_deadline t root e ig dl c0).1 ∧
    (build_with_deadline t root e ig dl c0).1.hasNode root = true := by
  have hM := masterAll t ig dl root (sizeOf e) e (le_refl _) []
    ((⟨[], []⟩ : Graph), c0, []) (fun s hs => absurd hs (by simp))
    (Inv.empty root ig) (Or.inr ⟨rfl, rfl⟩)
  rw [List.append_nil] at hM
  simp only [build_with_deadline]
  by_cases hr : ((walkPruned ig root e).foldl (buildStep t ig dl)
      ((⟨[], []⟩ : Graph), c0, [])).1.hasNode root = true
  · rw [if_pos hr]
    exact ⟨hM.1, hr⟩
  · rw [if_neg hr]
    set g := ((walkPruned ig root e).foldl (buildStep t ig dl)
      ((⟨[], []⟩ : Graph), c0, [])).1 with hgdef
    have hnil : g.nodes = [] := by
      rcases hM.1.shape with hsh | ⟨n0, rest, hns, hid0, _⟩
      · exact hsh
      · exfalso
        apply hr
        rw [Graph.hasNode_iff]
        exact ⟨n0, by rw [hns]; exact List.mem_cons_self n0 rest, hid0⟩
    constructor
    · refine ⟨?_, ?_, ?_⟩
      · intro m hm
        rw [Graph.mem_nodes_addNode] at hm
        rcases hm with hm | rfl
        · rw [hnil] at hm
          cases hm
        · exact ⟨[], by simp, by simp, fun _ s hs => absurd hs (by simp)⟩
      · intro ed hed
        rw [Graph.edges_addNode] at hed
        exact hM.1.targets ed hed
      · refine Or.inr ⟨⟨root, .folder, basename root, none⟩, [], ?_, rfl, ?_⟩
        · rw [Graph.nodes_addNode, hnil]
          rfl
        · intro m hm
          cases hm
    · rw [Graph.hasNode_addNode]
      simp

/-- `build_tree_json` establishes the invariant and a node for the root. -/
theorem build_tree_json_inv (t : Nat → Nat) (root : Path) (e : FSEntry)
    (ia : IgnoreArg) (ms : Option Nat) :
    Inv root (_normalize_ignores ia) (build_tree_json t root e ia ms).1 ∧
    (build_tree_json t root e ia ms).1.hasNode root = true := by
  unfold build_tree_json
  cases ms with
  | none => exact build_inv t root e (_normalize_ignores ia) none 0
  | some m =>
    by_cases hm : 0 < m
    · simp only [hm, if_pos]
      exact build_inv t root e (_normalize_ignores ia) (some (t 0 + m)) 1
    · simp only [hm, if_neg, not_false_iff]
      exact build_inv t root e (_normalize_ignores ia) none 0

theorem sumFiles_nil : sumFiles [] = 0 := rfl

theorem sumFiles_cons_some (n : String) (sz : Nat) (rest : List (String × Option Nat)) :
    sumFiles ((n, some sz) :: rest) = sz + sumFiles rest := by
  simp [sumFiles, List.filterMap_cons]

theorem sumFiles_cons_none (n : String) (rest : List (String × Option Nat)) :
    sumFiles ((n, none) :: rest) = sumFiles rest := by
  simp [sumFiles, List.filterMap_cons]

theorem sumTriples_cons (p : Path) (fs : List (String × Option Nat))
    (rest : List (Path × List (String × Option Nat))) :
    sumTriples ((p, fs) :: rest) = sumFiles fs + sumTriples rest := by
  simp [sumTriples]

/-- When the inner files loop finishes without the deadline firing, the new
running total is the old one plus the readable sizes of the list. -/
theorem gfsFiles_inl (t : Nat → Nat) (dl : Option Nat) (p : Path) :
    ∀ (fs : List (String × Option Nat)) (c : Nat) (w : List Path) (total : Nat)
      (c' : Nat) (w' : List Path) (total' : Nat),
      gfsFiles t dl p fs c w total = .inl (c', w', total') →
      total' = total + sumFiles fs := by
  intro fs
  induction fs with
  | nil =>
    intro c w total c' w' total' h
    simp [gfsFiles] at h
    simp [sumFiles, h.2.2]
  | cons f rest ih =>
    obtain ⟨n, s⟩ := f
    intro c w total c' w' total' h
    rw [gfsFiles] at h
    rcases hdc : dlCheck t dl c with ⟨b, c0⟩
    rw [hdc] at h
    cases b with
    | true => simp at h
    | false =>
      cases s with
      | some sz =>
        have := ih c0 w (total + sz) c' w' total' h
        rw [sumFiles_cons_some]
        omega
      | none =>
        have := ih c0 (w ++ [p ++ [n]]) total c' w' total' h
        rw [sumFiles_cons_none]
        omega

/-- The outer loop of `get_folder_size` either aborts with `None` or
finishes with the complete sum of the readable sizes of every triple. -/
theorem gfsGo_none_or_total (t : Nat → Nat) (dl : Option Nat) :
    ∀ (trips : List (Path × List (String × Option Nat)))
      (c : Nat) (w : List Path) (total : Nat),
      (gfsGo t dl trips c w total).2.2 = none ∨
      (gfsGo t dl trips c w total).2.2 = some (total + sumTriples trips) := by
  intro trips
  induction trips with
  | nil =>
    intro c w total
    right
    simp [gfsGo, sumTriples]
  | cons pr rest ih =>
    obtain ⟨p, fs⟩ := pr
    intro c w total
    rcases hdc : dlCheck t dl c with ⟨b, c0⟩
    cases b with
    | true =>
      left
      simp [gfsGo, hdc]
    | false =>
      rcases hgf : gfsFiles t dl p fs c0 w total with ⟨c'', w'', total''⟩ | ⟨c'', w''⟩
      · have htot := gfsFiles_inl t dl p fs c0 w total c'' w'' total'' hgf
        rcases ih c'' w'' total'' with hnone | hsome
        · left
          simp only [gfsGo, hdc, hgf]
          exact hnone
        · right
          simp only [gfsGo, hdc, hgf]
          rw [hsome, htot, sumTriples_cons]
          congr 1
          omega
      · left
        simp [gfsGo, hdc, hgf]

/-- A readable files list sums to the plain sum of its sizes. -/
theorem sumFiles_of_all_readable :
    ∀ (fs : List (String × Option Nat)),
      (fs.all fun f => f.2.isSome) = true →
      sumFiles fs = (fs.map fun f => f.2.getD 0).sum := by
  intro fs
  induction fs with
  | nil => intro _; rfl
  | cons f rest ih =>
    obtain ⟨n, s⟩ := f
    intro h
    simp only [List.all_cons, Bool.and_eq_true] at h
    cases s with
    | none => simp [Option.isSome] at h
    | some sz =>
      rw [sumFiles_cons_some]
      simp [ih h.2]

/-- With every descendant file readable, the readable sum is the exact sum
of all descendant file sizes. -/
theorem sumTriples_eq_of_readable :
    ∀ (trips : List (Path × List (String × Option Nat))),
      (trips.all fun pr => pr.2.all fun f => f.2.isSome) = true →
      sumTriples trips = (trips.map fun pr => (pr.2.map fun f => f.2.getD 0).sum).sum := by
  intro trips
  induction trips with
  | nil => intro _; rfl
  | cons pr rest ih =>
    intro h
    simp only [List.all_cons, Bool.and_eq_true] at h
    obtain ⟨p, fs⟩ := pr
    rw [sumTriples_cons]
    simp only [List.map_cons, List.sum_cons]
    rw [sumFiles_of_all_readable fs h.1, ih h.2]

theorem sum_readable_eq_sum_all (p : Path) (e : FSEntry)
    (h : all_readable p e = true) :
    sum_readable_sizes p e = sum_all_sizes p e := by
  unfold all_readable at h
  unfold sum_readable_sizes sum_all_sizes
  exact sumTriples_eq_of_readable (walkAll p e) h

/-- C4: for every folder-size computation — any clock, any deadline, any
subtree — the result of `get_folder_size` is either absent (`None`, the
deadline fired at one of the per-directory or per-file checks) or the
complete sum of the readable descendant file sizes; a proper partial sum
is never returned. -/
theorem C4_complete_sum_or_absent (t : Nat → Nat) (dl : Option Nat) (p : Path)
    (e : FSEntry) (c : Nat) :
    (get_folder_size t p e dl c).2.2 = none ∨
    (get_folder_size t p e dl c).2.2 = some (sum_readable_sizes p e) := by
  have h := gfsGo_none_or_total t dl (walkAll p e) c [] 0
  simpa [get_folder_size, sum_readable_sizes] using h

/-- C5: when a folder-size computation reports a value (no deadline expiry)
and every descendant file of the folder is readable, the reported value is
the exact sum of the sizes of all descendant files. -/
theorem C5_size_additivity (t : Nat → Nat) (dl : Option Nat) (p : Path)
    (e : FSEntry) (c : Nat) (s : Nat)
    (hread : all_readable p e = true)
    (hres : (get_folder_size t p e dl c).2.2 = some s) :
    s = sum_all_sizes p e := by
  have h := gfsGo_none_or_total t dl (walkAll p e) c [] 0
  rw [show gfsGo t dl (walkAll p e) c [] 0 = get_folder_size t p e dl c from rfl] at h
  rcases h with hnone | hsome
  · rw [hres] at hnone; cases hnone
  · rw [hres] at hsome
    have : s = sumTriples (walkAll p e) := by
      have := Option.some.inj hsome
      omega
    rw [this]
    exact sum_readable_eq_sum_all p e hread

/-- Witness for C5 at the concrete two-level example tree. -/
theorem C5_size_additivity_witness :
    all_readable ["A"] exTreeA = true ∧
    (get_folder_size zeroClock ["A"] exTreeA none 0).2.2 = some 10 ∧
    10 = sum_all_sizes ["A"] exTreeA :=
  ⟨by decide, by decide,
    C5_size_additivity zeroClock none ["A"] exTreeA 0 10 (by decide) (by decide)⟩

/-- C1 counterexample: in the spec's scenario (tree `A` with `a.txt` of 4
bytes and subdirectory `B` with `b.txt` of 6 bytes, `B` ignored, no
deadline) the claim states the root's `size_bytes` is 4; the code computes
10, because `get_folder_size` performs its own unpruned walk that ignores
the ignore set and still counts `b.txt`. -/
theorem C1_counterexample :
    buildA_ignoreB.nodes.head?.map Node.size_bytes = some (some (some 10)) ∧
    ¬ buildA_ignoreB.nodes.head?.map Node.size_bytes = some (some (some 4)) := by
  decide

/-- C1 amended: with `B` ignored and no deadline, the resulting graph has
exactly the root node `A` — whose `size_bytes` is 10, since the size walk
does not apply the ignore set — and the single child `a.txt` of size 4; no
node for `B` or `b.txt` appears anywhere. -/
theorem C1_amended_ignored_dir_pruned_but_still_counted :
    buildA_ignoreB =
      ⟨[⟨["A"], .folder, "A", some (some 10)⟩,
        ⟨["A", "a.txt"], .file, "a.txt", some (some 4)⟩],
       [(["A"], ["A", "a.txt"])]⟩ := by
  decide

/-- C2 counterexample: the claim states an unreadable file is omitted from
its parent's children; in the code (`build_tree_json`'s files loop) the
file is added as a child node with `size_bytes = None`, as the concrete
build of `exTreeBad` shows. -/
theorem C2_counterexample :
    (buildBad.1.nodes.any fun n => decide (n.id = ["A", "bad.txt"])) = true ∧
    (["A"], ["A", "bad.txt"]) ∈ buildBad.1.edges := by
  decide

/-- C2 amended: a file whose size query raises an OS error is kept as a
child of its parent with absent (`None`) size, not omitted; a diagnostic
naming the file is emitted; the parent's size sum excludes the file; and
the build still completes and returns a tree.  The first conjunct states
this for an arbitrary build state processing an arbitrary unreadable file
(node kept with `None` size, edge from the parent, warning appended); the
second that unreadable files contribute nothing to a folder-size sum; the
third evaluates the whole scenario build (`bad.txt` unreadable,
`good.txt` of 5 bytes): the parent size is 5, `bad.txt` is a child with
absent size, and the diagnostic appears (once from `get_folder_size`,
once from the files loop). -/
theorem C2_amended_unreadable_file_kept :
    (∀ (p : Path) (st : Graph × Nat × List Path) (fname : String),
      st.1.hasNode (p ++ [fname]) = false →
      (⟨p ++ [fname], .file, fname, some none⟩ : Node) ∈
        (addFileChild p st (fname, none)).1.nodes ∧
      (p, p ++ [fname]) ∈ (addFileChild p st (fname, none)).1.edges ∧
      (addFileChild p st (fname, none)).2.2 = st.2.2 ++ [p ++ [fname]]) ∧
    (∀ (fname : String) (rest : List (String × Option Nat)),
      sumFiles ((fname, none) :: rest) = sumFiles rest) ∧
    buildBad =
      (⟨[⟨["A"], .folder, "A", some (some 5)⟩,
         ⟨["A", "bad.txt"], .file, "bad.txt", some none⟩,
         ⟨["A", "good.txt"], .file, "good.txt", some (some 5)⟩],
        [(["A"], ["A", "bad.txt"]), (["A"], ["A", "good.txt"])]⟩,
       0,
       [["A", "bad.txt"], ["A", "bad.txt"]]) := by
  refine ⟨?_, ?_, by decide⟩
  · intro p st fname hno
    have hno' : ¬ st.1.hasNode (p ++ [fname]) = true := by
      rw [hno]
      exact Bool.false_ne_true
    refine ⟨?_, ?_, ?_⟩
    · rw [addFileChild_graph, Graph.nodes_addEdge, if_neg hno', Graph.mem_nodes_addNode]
      exact Or.inr rfl
    · rw [addFileChild_graph]
      exact Graph.self_mem_addEdge _ _
    · simp [addFileChild]
  · intro fname rest
    exact sumFiles_cons_none fname rest

/-- Witness for the universal part of the amended C2. -/
theorem C2_amended_witness :
    Graph.hasNode ⟨[], []⟩ (["A"] ++ ["bad.txt"]) = false ∧
    (⟨["A"] ++ ["bad.txt"], .file, "bad.txt", some none⟩ : Node) ∈
      (addFileChild ["A"] (⟨[], []⟩, 0, []) ("bad.txt", none)).1.nodes :=
  ⟨by decide,
    (C2_amended_unreadable_file_kept.1 ["A"] (⟨[], []⟩, 0, []) "bad.txt" (by decide)).1⟩

/-- C7: the build (entered through the CLI) fails exactly when the root
path does not exist or is not a directory — the `os.path.isdir` check runs
before any traversal, and the error branch contains no traversal at all —
and for every other input, unreadable entries and deadline expiry
included, the build succeeds with a tree. -/
theorem C7_fatal_iff_root_not_directory (t : Nat → Nat) (rootPath : Path)
    (target : Target) (ig : IgnoreArg) (ms : Option Nat) :
    exceptOk (cli_main t rootPath target ig ms) = os_isdir target := by
  cases target with
  | none => rfl
  | some e => cases e <;> rfl

/-- C10: a single-string ignore argument is the singleton ignore set — the
`isinstance(ignore, str)` branch of `_normalize_ignores` keeps the string
whole instead of iterating its characters — and the build behaves exactly
as with the explicit one-element list. -/
theorem C10_single_string_ignore_is_singleton (s : String) (t : Nat → Nat)
    (rootPath : Path) (e : FSEntry) (ms : Option Nat) :
    _normalize_ignores (.str s) = [s] ∧
    build_tree_json t rootPath e (.str s) ms =
      build_tree_json t rootPath e (.list [s]) ms :=
  ⟨rfl, rfl⟩

/-- C3: with a positive time budget the deadline is fixed exactly once at
the start of the build (`time.monotonic() + max_seconds`, the build's
first clock read) and the very same deadline value is threaded through
every folder-size computation; and any folder-size computation that starts
once the clock has passed the deadline returns `None` at its first check,
whatever the folder's actual size. -/
theorem C3_deadline_fixed_once_and_monotonic (t : Nat → Nat) (rootPath : Path)
    (e : FSEntry) (ia : IgnoreArg) (m : Nat) (hm : 0 < m)
    (p : Path) (dn : String) (es : List FSEntry) (c : Nat) (d : Nat)
    (hc : d < t c) :
    build_tree_json t rootPath e ia (some m) =
      build_with_deadline t rootPath e (_normalize_ignores ia) (some (t 0 + m)) 1 ∧
    (get_folder_size t p (.dir dn es) (some d) c).2.2 = none := by
  constructor
  · simp [build_tree_json, hm]
  · simp [get_folder_size, walkAll, gfsGo, dlCheck, hc]

/-- Whatever clock and deadline, a reported (non-`None`) folder size is
the full readable sum of the subtree. -/
theorem get_folder_size_some_eq (t : Nat → Nat) (p : Path) (e : FSEntry)
    (dl : Option Nat) (c : Nat) (s : Nat)
    (h : (get_folder_size t p e dl c).2.2 = some s) :
    s = sum_readable_sizes p e := by
  have hh := gfsGo_none_or_total t dl (walkAll p e) c [] 0
  rw [show gfsGo t dl (walkAll p e) c [] 0 = get_folder_size t p e dl c from rfl] at hh
  rcases hh with hnone | hsome
  · rw [h] at hnone
    cases hnone
  · rw [h] at hsome
    have := Option.some.inj hsome
    unfold sum_readable_sizes
    omega

theorem NodeSim.refl (n : Node) : NodeSim n n :=
  ⟨rfl, rfl, rfl, fun _ => rfl, fun s1 s2 h1 h2 => by
    rw [h1] at h2
    exact Option.some.inj (Option.some.inj h2)⟩

theorem forall2_any_id_eq {ns1 ns2 : List Node}
    (h : List.Forall₂ NodeSim ns1 ns2) (p : Path) :
    (ns1.any fun n => decide (n.id = p)) = (ns2.any fun n => decide (n.id = p)) := by
  induction h with
  | nil => rfl
  | cons hR _ ihh => simp only [List.any_cons, hR.1, ihh]

theorem RInv.hasNode_eq {g1 g2 : Graph} (h : RInv g1 g2) (p : Path) :
    g1.hasNode p = g2.hasNode p :=
  forall2_any_id_eq h.2 p

theorem RInv.addEdge {g1 g2 : Graph} (h : RInv g1 g2) (ed : Path × Path) :
    RInv (g1.addEdge ed) (g2.addEdge ed) := by
  constructor
  · unfold Graph.addEdge
    rw [h.1]
    split <;> simp [h.1]
  · rw [show (g1.addEdge ed).nodes = g1.nodes from Graph.nodes_addEdge g1 ed,
      show (g2.addEdge ed).nodes = g2.nodes from Graph.nodes_addEdge g2 ed]
    exact h.2

theorem RInv.addNode {g1 g2 : Graph} (h : RInv g1 g2) {n1 n2 : Node}
    (hn : NodeSim n1 n2) : RInv (g1.addNode n1) (g2.addNode n2) := by
  constructor
  · exact h.1
  · rw [Graph.nodes_addNode, Graph.nodes_addNode]
    exact List.rel_append h.2 (List.forall₂_cons.2 ⟨hn, List.Forall₂.nil⟩)

/-- The two folder nodes an `addDirChild` step creates in two runs are
similar: their sizes, when both present, are the readable sum of the same
subtree. -/
theorem addDirChild_rel (t1 t2 : Nat → Nat) (dl1 dl2 : Option Nat) (p : Path)
    (d : FSEntry) (st1 st2 : Graph × Nat × List Path)
    (h : RInv st1.1 st2.1) :
    RInv (addDirChild t1 dl1 p st1 d).1 (addDirChild t2 dl2 p st2 d).1 := by
  rw [addDirChild_graph, addDirChild_graph]
  have hhn := h.hasNode_eq (p ++ [d.name])
  by_cases h1 : st1.1.hasNode (p ++ [d.name]) = true
  · rw [if_pos h1, if_pos (hhn ▸ h1)]
    exact h.addEdge _
  · rw [if_neg h1, if_neg (hhn ▸ h1)]
    refine (h.addNode ?_).addEdge _
    refine ⟨rfl, rfl, rfl, fun hty => NodeType.noConfusion hty, ?_⟩
    intro s1 s2 hs1 hs2
    have e1 := get_folder_size_some_eq t1 (p ++ [d.name]) d dl1 st1.2.1 s1
      (Option.some.inj hs1)
    have e2 := get_folder_size_some_eq t2 (p ++ [d.name]) d dl2 st2.2.1 s2
      (Option.some.inj hs2)
    rw [e1, e2]

theorem addFileChild_rel (p : Path) (f : String × Option Nat)
    (st1 st2 : Graph × Nat × List Path) (h : RInv st1.1 st2.1) :
    RInv (addFileChild p st1 f).1 (addFileChild p st2 f).1 := by
  rw [addFileChild_graph, addFileChild_graph]
  have hhn := h.hasNode_eq (p ++ [f.1])
  by_cases h1 : st1.1.hasNode (p ++ [f.1]) = true
  · rw [if_pos h1, if_pos (hhn ▸ h1)]
    exact h.addEdge _
  · rw [if_neg h1, if_neg (hhn ▸ h1)]
    exact (h.addNode (NodeSim.refl _)).addEdge _

theorem foldl_addDirChild_rel (t1 t2 : Nat → Nat) (dl1 dl2 : Option Nat) (p : Path) :
    ∀ (ds : List FSEntry) (st1 st2 : Graph × Nat × List Path),
      RInv st1.1 st2.1 →
      RInv (ds.foldl (addDirChild t1 dl1 p) st1).1 (ds.foldl (addDirChild t2 dl2 p) st2).1 := by
  intro ds
  induction ds with
  | nil => intro st1 st2 h; exact h
  | cons d rest ih =>
    intro st1 st2 h
    rw [List.foldl_cons, List.foldl_cons]
    exact ih _ _ (addDirChild_rel t1 t2 dl1 dl2 p d st1 st2 h)

theorem foldl_addFileChild_rel (p : Path) :
    ∀ (fs : List (String × Option Nat)) (st1 st2 : Graph × Nat × List Path),
      RInv st1.1 st2.1 →
      RInv (fs.foldl (addFileChild p) st1).1 (fs.foldl (addFileChild p) st2).1 := by
  intro fs
  induction fs with
  | nil => intro st1 st2 h; exact h
  | cons f rest ih =>
    intro st1 st2 h
    rw [List.foldl_cons, List.foldl_cons]
    exact ih _ _ (addFileChild_rel p f st1 st2 h)

/-- Unfolding of one `buildStep` at a visited directory. -/
theorem buildStep_dir_eq (t : Nat → Nat) (ig : List String) (dl : Option Nat)
    (st : Graph × Nat × List Path) (p : Path) (dn : String) (es : List FSEntry) :
    buildStep t ig dl st (p, .dir dn es) =
      (filesOf es).foldl (addFileChild p)
        ((es.filter fun x => x.isDir && !ig.contains x.name).foldl (addDirChild t dl p)
          (if st.1.hasNode p then (st.1, st.2.1, st.2.2)
           else
             (st.1.addNode ⟨p, .folder, nameOf p,
                some (get_folder_size t p (.dir dn es) dl st.2.1).2.2⟩,
              (get_folder_size t p (.dir dn es) dl st.2.1).1,
              st.2.2 ++ (get_folder_size t p (.dir dn es) dl st.2.1).2.1))) := by
  by_cases hg : st.1.hasNode p = true <;> simp [buildStep, hg]

theorem buildStep_rel (t1 t2 : Nat → Nat) (ig : List String) (dl1 dl2 : Option Nat)
    (pe : Path × FSEntry) (st1 st2 : Graph × Nat × List Path)
    (h : RInv st1.1 st2.1) :
    RInv (buildStep t1 ig dl1 st1 pe).1 (buildStep t2 ig dl2 st2 pe).1 := by
  obtain ⟨p, e⟩ := pe
  cases e with
  | file n s => exact h
  | dir dn es =>
    rw [buildStep_dir_eq, buildStep_dir_eq]
    apply foldl_addFileChild_rel
    apply foldl_addDirChild_rel
    have hhn := h.hasNode_eq p
    by_cases h1 : st1.1.hasNode p = true
    · rw [if_pos h1, if_pos (hhn ▸ h1)]
      exact h
    · rw [if_neg h1, if_neg (hhn ▸ h1)]
      refine h.addNode ⟨rfl, rfl, rfl, fun hty => NodeType.noConfusion hty, ?_⟩
      intro s1 s2 hs1 hs2
      have e1 := get_folder_size_some_eq t1 p (.dir dn es) dl1 st1.2.1 s1
        (Option.some.inj hs1)
      have e2 := get_folder_size_some_eq t2 p (.dir dn es) dl2 st2.2.1 s2
        (Option.some.inj hs2)
      rw [e1, e2]

theorem foldl_buildStep_rel (t1 t2 : Nat → Nat) (ig : List String)
    (dl1 dl2 : Option Nat) :
    ∀ (pes : List (Path × FSEntry)) (st1 st2 : Graph × Nat × List Path),
      RInv st1.1 st2.1 →
      RInv (pes.foldl (buildStep t1 ig dl1) st1).1 (pes.foldl (buildStep t2 ig dl2) st2).1 := by
  intro pes
  induction pes with
  | nil => intro st1 st2 h; exact h
  | cons pe rest ih =>
    intro st1 st2 h
    rw [List.foldl_cons, List.foldl_cons]
    exact ih _ _ (buildStep_rel t1 t2 ig dl1 dl2 pe st1 st2 h)

theorem build_with_deadline_rel (t1 t2 : Nat → Nat) (root : Path) (e : FSEntry)
    (ig : List String) (dl1 dl2 : Option Nat) (c1 c2 : Nat) :
    RInv (build_with_deadline t1 root e ig dl1 c1).1
      (build_with_deadline t2 root e ig dl2 c2).1 := by
  have hloop := foldl_buildStep_rel t1 t2 ig dl1 dl2 (walkPruned ig root e)
    ((⟨[], []⟩ : Graph), c1, []) ((⟨[], []⟩ : Graph), c2, [])
    ⟨rfl, List.Forall₂.nil⟩
  simp only [build_with_deadline]
  have hhn := hloop.hasNode_eq root
  by_cases h1 : ((walkPruned ig root e).foldl (buildStep t1 ig dl1)
      ((⟨[], []⟩ : Graph), c1, [])).1.hasNode root = true
  · rw [if_pos h1, if_pos (hhn ▸ h1)]
    exact hloop
  · rw [if_neg h1, if_neg (hhn ▸ h1)]
    exact hloop.addNode (NodeSim.refl _)

/-- With no deadline the clock is never read, so the inner files loop does
not depend on it. -/
theorem gfsFiles_clock_irrel (t1 t2 : Nat → Nat) (p : Path) :
    ∀ (fs : List (String × Option Nat)) (c : Nat) (w : List Path) (total : Nat),
      gfsFiles t1 none p fs c w total = gfsFiles t2 none p fs c w total := by
  intro fs
  induction fs with
  | nil => intro c w total; rfl
  | cons f rest ih =>
    obtain ⟨n, s⟩ := f
    intro c w total
    cases s with
    | some sz =>
      show gfsFiles t1 none p rest c w (total + sz) =
        gfsFiles t2 none p rest c w (total + sz)
      exact ih c w (total + sz)
    | none =>
      show gfsFiles t1 none p rest c (w ++ [p ++ [n]]) total =
        gfsFiles t2 none p rest c (w ++ [p ++ [n]]) total
      exact ih c (w ++ [p ++ [n]]) total

theorem gfsGo_clock_irrel (t1 t2 : Nat → Nat) :
    ∀ (trips : List (Path × List (String × Option Nat)))
      (c : Nat) (w : List Path) (total : Nat),
      gfsGo t1 none trips c w total = gfsGo t2 none trips c w total := by
  intro trips
  induction trips with
  | nil => intro c w total; rfl
  | cons pr rest ih =>
    obtain ⟨p, fs⟩ := pr
    intro c w total
    show (match gfsFiles t1 none p fs c w total with
        | Sum.inl (c'', w'', total'') => gfsGo t1 none rest c'' w'' total''
        | Sum.inr (c'', w'') => (c'', w'', none)) =
      (match gfsFiles t2 none p fs c w total with
        | Sum.inl (c'', w'', total'') => gfsGo t2 none rest c'' w'' total''
        | Sum.inr (c'', w'') => (c'', w'', none))
    rw [gfsFiles_clock_irrel t1 t2 p fs c w total]
    cases gfsFiles t2 none p fs c w total with
    | inl x =>
      obtain ⟨c'', w'', total''⟩ := x
      exact ih c'' w'' total''
    | inr x => rfl

theorem get_folder_size_clock_irrel (t1 t2 : Nat → Nat) (p : Path) (e : FSEntry)
    (c : Nat) : get_folder_size t1 p e none c = get_folder_size t2 p e none c :=
  gfsGo_clock_irrel t1 t2 (walkAll p e) c [] 0

theorem foldl_congr_fn {α β : Type} (f g : α → β → α) (h : ∀ s x, f s x = g s x) :
    ∀ (l : List β) (s : α), l.foldl f s = l.foldl g s := by
  intro l
  induction l with
  | nil => intro s; rfl
  | cons x rest ih =>
    intro s
    rw [List.foldl_cons, List.foldl_cons, h]
    exact ih _

theorem addDirChild_clock_irrel (t1 t2 : Nat → Nat) (p : Path)
    (st : Graph × Nat × List Path) (d : FSEntry) :
    addDirChild t1 none p st d = addDirChild t2 none p st d := by
  simp only [addDirChild, get_folder_size_clock_irrel t1 t2]

theorem buildStep_clock_irrel (t1 t2 : Nat → Nat) (ig : List String)
    (st : Graph × Nat × List Path) (pe : Path × FSEntry) :
    buildStep t1 ig none st pe = buildStep t2 ig none st pe := by
  obtain ⟨p, e⟩ := pe
  cases e with
  | file n s => rfl
  | dir dn es =>
    rw [buildStep_dir_eq, buildStep_dir_eq]
    rw [get_folder_size_clock_irrel t1 t2 p (.dir dn es) st.2.1]
    rw [foldl_congr_fn (addDirChild t1 none p) (addDirChild t2 none p)
      (fun s x => addDirChild_clock_irrel t1 t2 p s x)]

theorem build_with_deadline_clock_irrel (t1 t2 : Nat → Nat) (root : Path)
    (e : FSEntry) (ig : List String) (c0 : Nat) :
    build_with_deadline t1 root e ig none c0 = build_with_deadline t2 root e ig none c0 := by
  simp only [build_with_deadline]
  rw [foldl_congr_fn (buildStep t1 ig none) (buildStep t2 ig none)
    (fun s x => buildStep_clock_irrel t1 t2 ig s x)]

/-- C9: two builds of the same unchanged filesystem tree (runs differing
only in their clock) produce structurally identical output: identical edge
lists, and node lists that agree pointwise on id, kind, name and every
file size, with folder sizes agreeing whenever both runs report one (a
folder size can differ only by being absent on the run whose deadline
straddled its computation).  With the time budget disabled the two output
graphs are identical. -/
theorem C9_idempotent_modulo_deadline (t1 t2 : Nat → Nat) (rootPath : Path)
    (e : FSEntry) (ia : IgnoreArg) (ms : Option Nat) :
    ((build_tree_json t1 rootPath e ia ms).1.edges =
        (build_tree_json t2 rootPath e ia ms).1.edges ∧
      List.Forall₂ NodeSim (build_tree_json t1 rootPath e ia ms).1.nodes
        (build_tree_json t2 rootPath e ia ms).1.nodes) ∧
    (build_tree_json t1 rootPath e ia none).1 = (build_tree_json t2 rootPath e ia none).1 := by
  constructor
  · have h : RInv (build_tree_json t1 rootPath e ia ms).1
        (build_tree_json t2 rootPath e ia ms).1 := by
      unfold build_tree_json
      cases ms with
      | none =>
        exact build_with_deadline_rel t1 t2 rootPath e (_normalize_ignores ia) none none 0 0
      | some m =>
        by_cases hm : 0 < m
        · simp only [if_pos hm]
          exact build_with_deadline_rel t1 t2 rootPath e (_normalize_ignores ia)
            (some (t1 0 + m)) (some (t2 0 + m)) 1 1
        · simp only [if_neg hm]
          exact build_with_deadline_rel t1 t2 rootPath e (_normalize_ignores ia) none none 0 0
    exact ⟨h.1, h.2⟩
  · show (build_with_deadline t1 rootPath e (_normalize_ignores ia) none 0).1 =
      (build_with_deadline t2 rootPath e (_normalize_ignores ia) none 0).1
    rw [build_with_deadline_clock_irrel t1 t2 rootPath e (_normalize_ignores ia) 0]

/-- C6 counterexample: building at a root directory whose own name is in
the ignore set still yields nodes — the walk always yields the top
directory, whatever its name — so with ignore set `{A}` and root `A` the
tree contains a node whose path has the segment `A` of the ignore set. -/
theorem C6_counterexample :
    (⟨["A"], .folder, "A", some (some 1)⟩ : Node) ∈ buildIgnRoot.nodes ∧
    "A" ∈ _normalize_ignores (.list ["A"]) ∧ "A" ∈ (["A"] : Path) := by
  refine ⟨?_, ?_, ?_⟩ <;> decide

/-- C6 amended: for every ignore set, every node of the resulting tree has
a path of the form `rootPath ++ rel`, and no segment of `rel` naming a
directory is in the ignore set: all segments of `rel` but the last are
directories and avoid the set, and for a folder node the last one does
too.  (The root's own path, and the bare file name of a file node, may
contain ignored names: pruning applies only to subdirectory names.) -/
theorem C6_amended_no_ignored_dir_below_root (t : Nat → Nat) (rootPath : Path)
    (e : FSEntry) (ia : IgnoreArg) (ms : Option Nat) (n : Node)
    (hn : n ∈ (build_tree_json t rootPath e ia ms).1.nodes) :
    ∃ rel, n.id = rootPath ++ rel ∧
      (∀ s ∈ rel.dropLast, s ∉ _normalize_ignores ia) ∧
      (n.type = NodeType.folder → ∀ s ∈ rel, s ∉ _normalize_ignores ia) :=
  (build_tree_json_inv t rootPath e ia ms).1.nodesOk n hn

/-- Witness for the amended C6 at the concrete two-level example. -/
theorem C6_amended_witness :
    (⟨["A", "a.txt"], .file, "a.txt", some (some 4)⟩ : Node) ∈
      (build_tree_json zeroClock ["A"] exTreeA (.list ["B"]) none).1.nodes ∧
    ∃ rel, (⟨["A", "a.txt"], .file, "a.txt", some (some 4)⟩ : Node).id = ["A"] ++ rel ∧
      (∀ s ∈ rel.dropLast, s ∉ _normalize_ignores (.list ["B"])) ∧
      ((⟨["A", "a.txt"], .file, "a.txt", some (some 4)⟩ : Node).type = NodeType.folder →
        ∀ s ∈ rel, s ∉ _normalize_ignores (.list ["B"])) :=
  ⟨by decide,
    C6_amended_no_ignored_dir_below_root zeroClock ["A"] exTreeA (.list ["B"]) none
      ⟨["A", "a.txt"], .file, "a.txt", some (some 4)⟩ (by decide)⟩

/-- C8: every build has exactly one parentless node — filtering the node
list down to the nodes no edge targets leaves exactly one node — and its
id is the (canonical absolute) root path. -/
theorem C8_rootedness (t : Nat → Nat) (rootPath : Path) (e : FSEntry)
    (ia : IgnoreArg) (ms : Option Nat) :
    (((build_tree_json t rootPath e ia ms).1.nodes.filter fun n =>
        (build_tree_json t rootPath e ia ms).1.edges.all fun ed =>
          !decide (ed.2 = n.id)).map Node.id) = [rootPath] := by
  obtain ⟨hInv, hroot⟩ := build_tree_json_inv t rootPath e ia ms
  set g := (build_tree_json t rootPath e ia ms).1 with hgdef
  rcases hInv.shape with hnil | ⟨n0, rest, hns, hid0, hlink⟩
  · exfalso
    rw [Graph.hasNode_iff] at hroot
    obtain ⟨m, hm, _⟩ := hroot
    rw [hnil] at hm
    cases hm
  · rw [hns, List.filter_cons]
    have hn0 : (g.edges.all fun ed => !decide (ed.2 = n0.id)) = true := by
      rw [List.all_eq_true]
      intro ed hed
      have hne := hInv.targets ed hed
      rw [hid0]
      simp [hne]
    rw [if_pos hn0]
    have hrest : rest.filter (fun n => g.edges.all fun ed => !decide (ed.2 = n.id)) = [] := by
      rw [List.filter_eq_nil_iff]
      intro m hm hall
      obtain ⟨ed, hed, heq⟩ := hlink m hm
      rw [List.all_eq_true] at hall
      have := hall ed hed
      rw [heq] at this
      simp at this
    rw [hrest]
    simp [hid0]

/-- Witness for C3 at concrete inputs. -/
theorem C3_witness :
    0 < 1 ∧ (0 : Nat) < (fun _ => (1 : Nat)) 0 ∧
    (build_tree_json (fun _ => 1) ["A"] exTreeA (.list []) (some 1) =
        build_with_deadline (fun _ => 1) ["A"] exTreeA
          (_normalize_ignores (.list [])) (some ((fun _ => (1 : Nat)) 0 + 1)) 1 ∧
      (get_folder_size (fun _ => 1) ["A"] (.dir "A" []) (some 0) 0).2.2 = none) :=
  ⟨by decide, by decide,
    C3_deadline_fixed_once_and_monotonic (fun _ => 1) ["A"] exTreeA (.list []) 1
      (by decide) ["A"] "A" [] 0 0 (by decide)⟩

end DirToGraph
